import Mathlib

/-!
Verification of the `lsm-storage` key-value store (an LSM-tree engine).

This file shallowly embeds the storage engine's data model and operations:
the entry codec (`src/format.rs`), the MemTable and its write-ahead log
(`src/memtable.rs`), the SSTable with its in-memory index and the two-way
merge (`src/sstable.rs`), the engine state (`src/engine.rs`), the storage
facade (`src/storage.rs`) and the compactor (`src/compactor.rs`).

Conventions of the embedding:
- A Rust byte (`u8`) is a `Nat` below 256; a file or stream is a `List Nat`.
- A Rust `String` key is represented by its UTF-8 byte sequence (`List Nat`);
  `String::cmp` is byte-wise lexicographic comparison, which `compareKeys`
  implements directly.
- `bincode`'s default (fixed-int, little-endian) encoding of
  `(String, Stored)` is spelled out: an 8-byte little-endian length prefix
  followed by the key bytes, then a 4-byte little-endian enum tag
  (0 = Tombstone, 1 = Value), and for `Value` an 8-byte length prefix
  followed by the value bytes.
- File-handle plumbing and I/O errors of the host filesystem are not
  modelled; the byte contents of WAL and SSTable files are.
-/

/-- The stored payload of a record: `src/lib.rs`, `enum Stored`.
Variant order matters: bincode encodes the variant index (Tombstone = 0,
Value = 1) as a little-endian `u32`. -/
inductive Stored where
  | Tombstone : Stored
  | Value : List Nat → Stored
deriving DecidableEq, Repr

/-- A key is the UTF-8 byte sequence of the Rust `String`. -/
abbrev Key := List Nat

/-- A record, as serialized by `format::write_entry`: `(key, stored)`. -/
abbrev Entry := Key × Stored

/-- Byte-wise lexicographic comparison of keys; this is what Rust's
`String::cmp` computes on the underlying UTF-8 bytes. -/
def compareKeys : Key → Key → Ordering
  | [], [] => .eq
  | [], _ :: _ => .lt
  | _ :: _, [] => .gt
  | a :: as, b :: bs =>
    if a < b then .lt else if b < a then .gt else compareKeys as bs

/-- Strict key order `a < b`. -/
def keyLt (a b : Key) : Prop := compareKeys a b = .lt

instance (a b : Key) : Decidable (keyLt a b) := by
  unfold keyLt; infer_instance

/-- Is `b` a UTF-8 continuation byte (`0x80..=0xBF`)? -/
def isCont (b : Nat) : Bool := 0x80 ≤ b && b ≤ 0xBF

/-- UTF-8 validity of a byte sequence, as enforced by
`String::from_utf8` when bincode deserializes the key (RFC 3629 table:
no overlong forms, no surrogates, max U+10FFFF). -/
def utf8Valid : List Nat → Bool
  | [] => true
  | b :: r =>
    if b ≤ 0x7F then utf8Valid r
    else if 0xC2 ≤ b && b ≤ 0xDF then
      match r with
      | c1 :: r1 => isCont c1 && utf8Valid r1
      | [] => false
    else if b = 0xE0 then
      match r with
      | c1 :: c2 :: r2 => (0xA0 ≤ c1 && c1 ≤ 0xBF) && isCont c2 && utf8Valid r2
      | _ => false
    else if (0xE1 ≤ b && b ≤ 0xEC) || b = 0xEE || b = 0xEF then
      match r with
      | c1 :: c2 :: r2 => isCont c1 && isCont c2 && utf8Valid r2
      | _ => false
    else if b = 0xED then
      match r with
      | c1 :: c2 :: r2 => (0x80 ≤ c1 && c1 ≤ 0x9F) && isCont c2 && utf8Valid r2
      | _ => false
    else if b = 0xF0 then
      match r with
      | c1 :: c2 :: c3 :: r3 =>
        (0x90 ≤ c1 && c1 ≤ 0xBF) && isCont c2 && isCont c3 && utf8Valid r3
      | _ => false
    else if 0xF1 ≤ b && b ≤ 0xF3 then
      match r with
      | c1 :: c2 :: c3 :: r3 => isCont c1 && isCont c2 && isCont c3 && utf8Valid r3
      | _ => false
    else if b = 0xF4 then
      match r with
      | c1 :: c2 :: c3 :: r3 =>
        (0x80 ≤ c1 && c1 ≤ 0x8F) && isCont c2 && isCont c3 && utf8Valid r3
      | _ => false
    else false

/-- Little-endian value of a byte list: `leNat [b0, b1, ...] = b0 + 256*b1 + ...`. -/
def leNat (bs : List Nat) : Nat := bs.foldr (fun b acc => b + 256 * acc) 0

/-- The 8 little-endian bytes of a `u64`. -/
def encodeU64 (n : Nat) : List Nat :=
  [n % 256, n / 2 ^ 8 % 256, n / 2 ^ 16 % 256, n / 2 ^ 24 % 256,
   n / 2 ^ 32 % 256, n / 2 ^ 40 % 256, n / 2 ^ 48 % 256, n / 2 ^ 56 % 256]

/-- The 4 little-endian bytes of a `u32`. -/
def encodeU32 (n : Nat) : List Nat :=
  [n % 256, n / 2 ^ 8 % 256, n / 2 ^ 16 % 256, n / 2 ^ 24 % 256]

/-- The bincode encoding of one record, as produced by
`format::write_entry` (`src/format.rs`): length-prefixed key bytes, then
the `Stored` enum tag, then for `Value` the length-prefixed value bytes. -/
def encodeEntry (k : Key) (v : Stored) : List Nat :=
  encodeU64 k.length ++ k ++
    match v with
    | .Tombstone => encodeU32 0
    | .Value b => encodeU32 1 ++ encodeU64 b.length ++ b

/-- `format::entry_size`: `bincode::serialized_size` of a record, i.e. the
exact number of bytes its encoding occupies. -/
def entry_size (e : Entry) : Nat := (encodeEntry e.1 e.2).length

/-- `format::write_entry` appends the encoded record to a byte stream. -/
def write_entry (stream : List Nat) (k : Key) (v : Stored) : List Nat :=
  stream ++ encodeEntry k v

/-- Result of `format::read_entry` (`src/format.rs`) on a byte stream:
`ok e rest` is `Ok(Some(e))` with `rest` the unconsumed bytes,
`eof` is `Ok(None)` (bincode reported `io::ErrorKind::UnexpectedEof`,
accepted by `reached_eof`), and `corrupt` is `Err(_)` (any other
deserialization failure). -/
inductive ReadResult where
  | ok : Entry → List Nat → ReadResult
  | eof : ReadResult
  | corrupt : ReadResult
deriving DecidableEq, Repr

deriving instance DecidableEq for Except

/-- `Read::read_exact`: consume exactly `n` bytes, or fail with
`UnexpectedEof` (modelled by `none`) when fewer are available. -/
def readExact (n : Nat) (l : List Nat) : Option (List Nat × List Nat) :=
  if n ≤ l.length then some (l.take n, l.drop n) else none

/-- `format::read_entry`: deserialize one `(String, Stored)` record.
bincode reads the 8-byte key length, the key bytes (validated as UTF-8),
the 4-byte variant tag, and for `Value` the 8-byte value length and the
value bytes.  Every short read surfaces as `UnexpectedEof`, which
`reached_eof` converts to `Ok(None)`; an invalid UTF-8 key or an
out-of-range tag is any-other-failure, i.e. `corrupt`. -/
def read_entry (bytes : List Nat) : ReadResult :=
  match readExact 8 bytes with
  | none => .eof
  | some (lenB, r1) =>
    match readExact (leNat lenB) r1 with
    | none => .eof
    | some (key, r2) =>
      if utf8Valid key then
        match readExact 4 r2 with
        | none => .eof
        | some (tagB, r3) =>
          match leNat tagB with
          | 0 => .ok (key, .Tombstone) r3
          | 1 =>
            match readExact 8 r3 with
            | none => .eof
            | some (vlenB, r4) =>
              match readExact (leNat vlenB) r4 with
              | none => .eof
              | some (val, r5) => .ok (key, .Value val) r5
          | _ => .corrupt
      else .corrupt

/-- Characterization of a successful `readExact` (a proof-carrying
definition: the decoding loops below need it for termination). -/
def readExact_eq_some {n : Nat} {l a r : List Nat}
    (h : readExact n l = some (a, r)) :
    a = l.take n ∧ r = l.drop n ∧ n ≤ l.length := by
  unfold readExact at h
  split at h
  · rename_i hle
    simp only [Option.some.injEq, Prod.mk.injEq] at h
    exact ⟨h.1.symm, h.2.symm, hle⟩
  · cases h

/-- A successful `read_entry` strictly consumes bytes (at least the key
length prefix and the tag); this bounds the recursion of every decoding
loop below (a proof-carrying definition used by their termination
arguments). -/
def read_entry_ok_length {bytes : List Nat} {e : Entry} {rest : List Nat}
    (h : read_entry bytes = .ok e rest) : rest.length < bytes.length := by
  unfold read_entry at h
  split at h
  · cases h
  · rename_i lenB r1 h1
    obtain ⟨-, hr1, hn1⟩ := readExact_eq_some h1
    split at h
    · cases h
    · rename_i key r2 h2
      obtain ⟨-, hr2, hn2⟩ := readExact_eq_some h2
      split at h
      · split at h
        · cases h
        · rename_i tagB r3 h3
          obtain ⟨-, hr3, hn3⟩ := readExact_eq_some h3
          split at h
          · cases h
            subst hr3 hr2 hr1
            simp only [List.length_drop]
            omega
          · split at h
            · cases h
            · rename_i vlenB r4 h4
              obtain ⟨-, hr4, hn4⟩ := readExact_eq_some h4
              split at h
              · cases h
              · rename_i val r5 h5
                obtain ⟨-, hr5, hn5⟩ := readExact_eq_some h5
                cases h
                subst hr5 hr4 hr3 hr2 hr1
                simp only [List.length_drop]
                omega
          · cases h
      · cases h

/-- Decode a whole file into its record sequence: repeated `read_entry`
until `EndOfStream`, failing if a record is corrupt.  This is the reading
side shared by `SSTable::merge`'s scan loops. -/
def readAllEntries (bytes : List Nat) : Except String (List Entry) :=
  match h : read_entry bytes with
  | .ok e rest =>
    match readAllEntries rest with
    | .ok es => .ok (e :: es)
    | .error s => .error s
  | .eof => .ok []
  | .corrupt => .error "corrupt record"
termination_by bytes.length
decreasing_by exact read_entry_ok_length h

/-- Concatenated encodings of a record sequence (a record file's bytes). -/
def encodeEntries : List Entry → List Nat
  | [] => []
  | e :: es => encodeEntry e.1 e.2 ++ encodeEntries es

/-- First-match association lookup of a key in a record sequence. -/
def entryLookup : List Entry → Key → Option Stored
  | [], _ => none
  | e :: es, k => if e.1 = k then some e.2 else entryLookup es k

/-- `BTreeMap::insert` on the ordered association list that models the
map: keeps keys strictly ascending, replacing the stored value when the
key is already present. -/
def treeInsert (k : Key) (v : Stored) : List Entry → List Entry
  | [] => [(k, v)]
  | e :: t =>
    match compareKeys k e.1 with
    | .lt => (k, v) :: e :: t
    | .eq => (k, v) :: t
    | .gt => e :: treeInsert k v t

/-- `MemTable` (`src/memtable.rs`): the ordered map plus the byte
contents of its write-ahead log.  The `wal_path` and open file handle of
the source are not modelled; the WAL's bytes are. -/
structure MemTable where
  tree : List Entry
  wal : List Nat
deriving DecidableEq, Repr

/-- `MemTable::new`: empty map, freshly created (empty) WAL file. -/
def MemTable.new : MemTable := ⟨[], []⟩

/-- `MemTable::insert`: append `(key, Value(value))` to the WAL, then
upsert into the ordered map. -/
def MemTable.insert (m : MemTable) (k : Key) (v : List Nat) : MemTable :=
  ⟨treeInsert k (.Value v) m.tree, write_entry m.wal k (.Value v)⟩

/-- `MemTable::remove`: append `(key, Tombstone)` to the WAL, then upsert
a tombstone into the ordered map. -/
def MemTable.remove (m : MemTable) (k : Key) : MemTable :=
  ⟨treeInsert k .Tombstone m.tree, write_entry m.wal k .Tombstone⟩

/-- `MemTable::len`: the number of entries (distinct keys) in the map. -/
def MemTable.len (m : MemTable) : Nat := m.tree.length

/-- `MemTable::get`: `Some(v)` only when the stored state is
`Stored::Value(v)`; both absence and a tombstone yield `None`. -/
def MemTable.get (m : MemTable) (k : Key) : Option (List Nat) :=
  match entryLookup m.tree k with
  | some (.Value v) => some v
  | _ => none

/-- The replay loop of `MemTable::recover`: read records while they
decode, inserting each into the map and accumulating
`bytes_read += entry_size`; stop at `EndOfStream` or corruption. -/
def recoverLoop (bytes : List Nat) (tree : List Entry) (bytesRead : Nat) :
    List Entry × Nat :=
  match h : read_entry bytes with
  | .ok e rest => recoverLoop rest (treeInsert e.1 e.2 tree) (bytesRead + entry_size e)
  | _ => (tree, bytesRead)
termination_by bytes.length
decreasing_by exact read_entry_ok_length h

/-- `MemTable::recover`: replay all intact records of the WAL in order,
then `set_len(bytes_read)` — the file is truncated to the last byte of
the last intact record, silently discarding a trailing torn or corrupt
record. -/
def MemTable.recover (walBytes : List Nat) : MemTable :=
  let p := recoverLoop walBytes [] 0
  ⟨p.1, walBytes.take p.2⟩

/-- `MemTable::persist`: write all records to the SSTable file in
ascending key order via the entry codec (the WAL is then unlinked, which
has no byte-level counterpart here).  Returns the file's bytes. -/
def MemTable.persist (m : MemTable) : List Nat :=
  m.tree.foldl (fun fd e => write_entry fd e.1 e.2) []

/-- One mutation of the public MemTable/Storage write API. -/
inductive Op where
  | ins : Key → List Nat → Op
  | del : Key → Op
deriving DecidableEq, Repr

/-- Apply one mutation to a MemTable. -/
def applyOp (m : MemTable) : Op → MemTable
  | .ins k v => m.insert k v
  | .del k => m.remove k

/-- Apply a sequence of mutations in order. -/
def applyOps (m : MemTable) (ops : List Op) : MemTable := ops.foldl applyOp m

/-- The record that one mutation appends to the WAL. -/
def opEntry : Op → Entry
  | .ins k v => (k, .Value v)
  | .del k => (k, .Tombstone)

/-- `HashMap::insert` on the association list modelling the SSTable
index: replace the binding if the key is present, else add it. -/
def hashInsert (k : Key) (off : Nat) : List (Key × Nat) → List (Key × Nat)
  | [] => [(k, off)]
  | p :: t => if p.1 = k then (k, off) :: t else p :: hashInsert k off t

/-- `HashMap::get` on the index. -/
def indexLookup : List (Key × Nat) → Key → Option Nat
  | [], _ => none
  | p :: t, k => if p.1 = k then some p.2 else indexLookup t k

/-- `SSTable` (`src/sstable.rs`): the on-disk file's bytes and the
in-memory key-to-offset index built on open. -/
structure SSTable where
  file : List Nat
  indexes : List (Key × Nat)
deriving DecidableEq, Repr

/-- The scan loop of `SSTable::build_index_table`:
`while let Ok(Some(entry)) = read_entry(fd)` — record the current offset
for the key, advance by `entry_size`.  The loop exits silently both on
`Ok(None)` (clean EOF, including a record truncated mid-way) and on
`Err(_)` (corruption): the error value is discarded by the
`while let Ok(..)` pattern. -/
def buildIndexLoop (bytes : List Nat) (indexes : List (Key × Nat))
    (bytesRead : Nat) : List (Key × Nat) :=
  match h : read_entry bytes with
  | .ok e rest => buildIndexLoop rest (hashInsert e.1 bytesRead indexes) (bytesRead + entry_size e)
  | _ => indexes
termination_by bytes.length
decreasing_by exact read_entry_ok_length h

/-- `SSTable::build_index_table`: the only fallible call inside the loop
is `entry_size` (`bincode::serialized_size` of an already-decoded record),
which cannot fail; the `Result` therefore always comes back `Ok`. -/
def build_index_table (bytes : List Nat) : Except String (List (Key × Nat)) :=
  .ok (buildIndexLoop bytes [] 0)

/-- `SSTable::new`: open the file and build the index (host I/O errors of
`File::open` are not modelled). -/
def SSTable.new (file : List Nat) : Except String SSTable :=
  (build_index_table file).map fun idx => ⟨file, idx⟩

/-- `SSTable::get`: if the key is absent from the index return
`Ok(None)`; otherwise seek to the recorded offset and decode the record,
translating `Value(v)` to `Ok(Some(v))` and `Tombstone` to `Ok(None)`.
Decoding `Err` propagates via `?`; `Ok(None)` at the offset would make
the source's `.unwrap()` panic, modelled as an error as well. -/
def SSTable.get (t : SSTable) (k : Key) : Except String (Option (List Nat)) :=
  match indexLookup t.indexes k with
  | none => .ok none
  | some off =>
    match read_entry (t.file.drop off) with
    | .ok (_, .Value v) _ => .ok (some v)
    | .ok (_, .Tombstone) _ => .ok none
    | .eof => .error "no record at indexed offset"
    | .corrupt => .error "corrupt record"

/-- The two-pointer merge of `SSTable::merge` on decoded record
sequences: while both sides have a record, equal keys emit `new`'s record
and advance both, otherwise the smaller key is emitted and its side
advances; when one side is exhausted the other is drained unchanged. -/
def mergeEntries : List Entry → List Entry → List Entry
  | old, [] => old
  | [], new => new
  | (ko, vo) :: oldT, (kn, vn) :: newT =>
    match compareKeys ko kn with
    | .eq => (kn, vn) :: mergeEntries oldT newT
    | .lt => (ko, vo) :: mergeEntries oldT ((kn, vn) :: newT)
    | .gt => (kn, vn) :: mergeEntries ((ko, vo) :: oldT) newT
termination_by o n => o.length + n.length

/-- `SSTable::merge` (`src/sstable.rs`): rewind both files, interleave
`read_entry`/`write_entry` as in `mergeEntries`, and open the written
file.  Reading each input lazily record-by-record while writing is
byte-for-byte equivalent to decoding each input's full record sequence
(every loop path drains both inputs, so a corrupt record in either input
fails the merge exactly as the source's `?` does) and encoding the merged
sequence. -/
def SSTable.merge (oldFile newFile : List Nat) : Except String (List Nat) :=
  match readAllEntries oldFile, readAllEntries newFile with
  | .ok old, .ok new => .ok (encodeEntries (mergeEntries old new))
  | .error s, _ => .error s
  | _, .error s => .error s

/-- `Engine` (`src/engine.rs`): the active MemTable, the frozen MemTables
awaiting flush (oldest first), and the SSTables and their readers at
levels 0 and 1 (oldest first).  A reader is modelled by the table itself:
both wrap the same file. -/
structure Engine where
  active_memtable : MemTable
  memtables : List MemTable
  sstables0 : List SSTable
  sstables1 : List SSTable
  sstable_readers0 : List SSTable
  sstable_readers1 : List SSTable
deriving DecidableEq, Repr

/-- `Storage` (`src/storage.rs`): the engine plus the configuration
threshold and the WAL sequence number.  The mutex, the persistence
channel and the compactor thread handle are not modelled. -/
structure Storage where
  engine : Engine
  threshold : Nat
  sequence_number : Nat
deriving DecidableEq, Repr

/-- `StorageBuilder::build` on empty segment and WAL directories: no WAL
files to recover, so a fresh active MemTable with id 0 and no frozen
MemTables; no SSTable files, so empty levels. -/
def Storage.openEmpty (threshold : Nat) : Storage :=
  ⟨⟨MemTable.new, [], [], [], [], []⟩, threshold, 0⟩

/-- `engine.memtables.iter().rev().find_map(|m| m.get(key))` of
`Storage::read`: first `Some` returned by a frozen MemTable's `get`,
iterating newest first once the caller reverses. -/
def findMemtableValue : List MemTable → Key → Option (List Nat)
  | [], _ => none
  | m :: ms, k =>
    match m.get k with
    | some v => some v
    | none => findMemtableValue ms k

/-- The SSTable fallback loop of `Storage::read`: return the first
`Some` produced by a reader's `get`, continuing past `Ok(None)` (absent
key or tombstone alike).  The source unwraps the `Result`; the panic
branch is modelled as `none` and is unreachable for tables the engine
built from intact files. -/
def firstSSTableHit : List SSTable → Key → Option (List Nat)
  | [], _ => none
  | t :: ts, k =>
    match t.get k with
    | .ok (some v) => some v
    | _ => firstSSTableHit ts k

/-- `Storage::read` (`src/storage.rs`, lines 191-210): probe the frozen
`memtables` newest first via `find_map`, then fall back to the
`sstable_readers0` newest first.  Note the source consults neither
`active_memtable` nor `sstable_readers1`. -/
def Storage.read (s : Storage) (k : Key) : Option (List Nat) :=
  match findMemtableValue s.engine.memtables.reverse k with
  | some v => some v
  | none => firstSSTableHit s.engine.sstable_readers0.reverse k

/-- `Storage::replace_memtable`: bump the sequence number, create a fresh
empty MemTable (with a new WAL), swap it into the active slot and push
the old active MemTable onto the frozen queue. -/
def replace_memtable (s : Storage) : Storage :=
  { s with
    sequence_number := s.sequence_number + 1,
    engine := { s.engine with
      active_memtable := MemTable.new,
      memtables := s.engine.memtables ++ [s.engine.active_memtable] } }

/-- `Storage::insert`: insert into the active MemTable; if its length has
reached the threshold, rotate it onto the frozen queue. -/
def Storage.insert (s : Storage) (k : Key) (v : List Nat) : Storage :=
  let s' := { s with engine :=
    { s.engine with active_memtable := s.engine.active_memtable.insert k v } }
  if s'.engine.active_memtable.len = s.threshold then replace_memtable s' else s'

/-- `Storage::remove`: remove via the active MemTable (writing a
tombstone); same threshold rotation as insert. -/
def Storage.remove (s : Storage) (k : Key) : Storage :=
  let s' := { s with engine :=
    { s.engine with active_memtable := s.engine.active_memtable.remove k } }
  if s'.engine.active_memtable.len = s.threshold then replace_memtable s' else s'

/-- `trigger_l0_compaction` (`src/compactor.rs`, lines 49-78), at the
level of file contents: chain the L0 tables (oldest first) with the L1
tables and `reduce` them pairwise left-to-right with `SSTable::merge`,
the accumulator playing `old` and each next table `new`; the merged file
becomes the single new L1 table.  The source unwraps each merge `Result`
(the error branch is unreachable for intact tables). -/
def trigger_l0_compaction (sstables0 sstables1 : List (List Nat)) :
    Option (List Nat) :=
  match sstables0 ++ sstables1 with
  | [] => none
  | t :: ts =>
    some (ts.foldl (fun acc table =>
      match SSTable.merge acc table with
      | .ok merged => merged
      | .error _ => []) t)

/-- Does decoding the stream yield no record (clean EOF or corruption,
i.e. anything but `Ok(Some(_))`)?  This characterises the trailing
garbage that every decoding loop silently stops at. -/
def stopsEntry (g : List Nat) : Bool :=
  match read_entry g with
  | .ok _ _ => false
  | _ => true

/-- Well-formedness of one record as produced by the Rust code: the key
is the UTF-8 encoding of a `String`, and key and value lengths fit in the
`u64` length prefixes. -/
def entryWF (e : Entry) : Bool :=
  utf8Valid e.1 && decide (e.1.length < 2 ^ 64) &&
    match e.2 with
    | .Tombstone => true
    | .Value v => decide (v.length < 2 ^ 64)

/-- Well-formedness of a record sequence. -/
def entriesWF (es : List Entry) : Bool := es.all entryWF

/-- Records strictly ascending by key with no duplicates (the SSTable
file invariant). -/
def sortedStrict : List Entry → Bool
  | [] => true
  | [_] => true
  | a :: b :: t => decide (keyLt a.1 b.1) && sortedStrict (b :: t)

/-- Well-formedness of a mutation sequence: every key and value satisfies
`entryWF`. -/
def opsWF (ops : List Op) : Bool := ops.all fun o => entryWF (opEntry o)

/-- The strict key order on records, as used by the sortedness invariant. -/
def entryKeyLt (a b : Entry) : Prop := keyLt a.1 b.1

theorem compareKeys_self (k : Key) : compareKeys k k = .eq := by
  induction k with
  | nil => rfl
  | cons a t ih => simp [compareKeys, ih]

theorem compareKeys_eq_iff {a b : Key} : compareKeys a b = .eq ↔ a = b := by
  induction a generalizing b with
  | nil => cases b <;> simp [compareKeys]
  | cons x xs ih =>
    cases b with
    | nil => simp [compareKeys]
    | cons y ys =>
      by_cases h1 : x < y
      · simp [compareKeys, h1]
        omega
      · by_cases h2 : y < x
        · simp [compareKeys, h1, h2]
          omega
        · have : x = y := by omega
          subst this
          simp [compareKeys, ih]

theorem compareKeys_gt_iff {a b : Key} :
    compareKeys a b = .gt ↔ compareKeys b a = .lt := by
  induction a generalizing b with
  | nil => cases b <;> simp [compareKeys]
  | cons x xs ih =>
    cases b with
    | nil => simp [compareKeys]
    | cons y ys =>
      by_cases h1 : x < y
      · have h2 : ¬ y < x := by omega
        simp [compareKeys, h1, h2]
      · by_cases h2 : y < x
        · simp [compareKeys, h1, h2]
        · have : x = y := by omega
          subst this
          simp [compareKeys, h1, ih]

theorem keyLt_trans {a : Key} : ∀ {b c : Key}, keyLt a b → keyLt b c → keyLt a c := by
  induction a with
  | nil =>
    intro b c hab hbc
    cases b with
    | nil => simp [keyLt, compareKeys] at hab
    | cons y ys =>
      cases c with
      | nil => simp [keyLt, compareKeys] at hbc
      | cons z zs => rfl
  | cons x xs ih =>
    intro b c hab hbc
    cases b with
    | nil => simp [keyLt, compareKeys] at hab
    | cons y ys =>
      cases c with
      | nil => simp [keyLt, compareKeys] at hbc
      | cons z zs =>
        simp only [keyLt, compareKeys] at hab hbc ⊢
        by_cases hxy : x < y
        · by_cases hyz : y < z
          · simp [show x < z by omega]
          · by_cases hzy : z < y
            · simp [hyz, hzy] at hbc
            · have : y = z := by omega
              subst this
              simp [hxy]
        · by_cases hyx : y < x
          · simp [hxy, hyx] at hab
          · have : x = y := by omega
            subst this
            simp only [lt_irrefl, if_false] at hab ⊢
            by_cases hyz : x < z
            · simp [hyz]
            · by_cases hzy : z < x
              · simp [hyz, hzy] at hbc
              · have : x = z := by omega
                subst this
                simp only [lt_irrefl, if_false] at hbc ⊢
                exact ih hab hbc

theorem keyLt_irrefl (a : Key) : ¬ keyLt a a := by
  simp [keyLt, compareKeys_self]

theorem keyLt_ne {a b : Key} (h : keyLt a b) : a ≠ b := by
  intro he
  subst he
  exact keyLt_irrefl a h

theorem keyLt_of_not_gt {a b : Key} (hne : a ≠ b) (h : ¬ keyLt a b) : keyLt b a := by
  rcases hc : compareKeys a b with _ | _ | _
  · exact absurd hc h
  · exact absurd (compareKeys_eq_iff.mp hc) hne
  · exact compareKeys_gt_iff.mp hc

theorem encodeU64_length (n : Nat) : (encodeU64 n).length = 8 := rfl

theorem encodeU32_length (n : Nat) : (encodeU32 n).length = 4 := rfl

theorem leNat_encodeU64 {n : Nat} (h : n < 2 ^ 64) : leNat (encodeU64 n) = n := by
  simp only [leNat, encodeU64, List.foldr]
  norm_num
  omega

theorem readExact_len (a b : List Nat) : readExact a.length (a ++ b) = some (a, b) := by
  unfold readExact
  rw [if_pos (by simp)]
  rw [List.take_left, List.drop_left]

theorem readExact8_u64 (n : Nat) (b : List Nat) :
    readExact 8 (encodeU64 n ++ b) = some (encodeU64 n, b) := by
  have := readExact_len (encodeU64 n) b
  rwa [encodeU64_length] at this

theorem readExact4_u32 (n : Nat) (b : List Nat) :
    readExact 4 (encodeU32 n ++ b) = some (encodeU32 n, b) := by
  have := readExact_len (encodeU32 n) b
  rwa [encodeU32_length] at this

theorem entryWF_parts {k : Key} {v : Stored} (h : entryWF (k, v) = true) :
    utf8Valid k = true ∧ k.length < 2 ^ 64 ∧
      (∀ b, v = .Value b → b.length < 2 ^ 64) := by
  cases v with
  | Tombstone =>
    simp [entryWF] at h
    exact ⟨h.1, h.2, by intro b hb; cases hb⟩
  | Value b =>
    simp [entryWF] at h
    exact ⟨h.1.1, h.1.2, by intro b' hb; cases hb; exact h.2⟩

/-- Codec round trip: decoding an encoded record consumes exactly its
bytes and yields it back, whatever follows. -/
theorem read_entry_encode {k : Key} {v : Stored} (rest : List Nat)
    (hwf : entryWF (k, v) = true) :
    read_entry (encodeEntry k v ++ rest) = .ok (k, v) rest := by
  obtain ⟨h1, h2, h3⟩ := entryWF_parts hwf
  have htag0 : leNat (encodeU32 0) = 0 := rfl
  have htag1 : leNat (encodeU32 1) = 1 := rfl
  cases v with
  | Tombstone =>
    simp [encodeEntry, List.append_assoc, read_entry, readExact8_u64,
      leNat_encodeU64 h2, readExact_len, h1, readExact4_u32, htag0]
  | Value b =>
    have hb : b.length < 2 ^ 64 := h3 b rfl
    simp [encodeEntry, List.append_assoc, read_entry, readExact8_u64,
      leNat_encodeU64 h2, leNat_encodeU64 hb, readExact_len, h1,
      readExact4_u32, htag1]

theorem entriesWF_cons {e : Entry} {es : List Entry} :
    entriesWF (e :: es) = true ↔ entryWF e = true ∧ entriesWF es = true := by
  simp [entriesWF]

theorem stopsEntry_nil : stopsEntry [] = true := rfl

/-- Decoding a whole well-formed file yields back exactly the encoded
record sequence. -/
theorem readAllEntries_encode {es : List Entry} (hwf : entriesWF es = true) :
    readAllEntries (encodeEntries es) = .ok es := by
  induction es with
  | nil =>
    rw [readAllEntries]
    rfl
  | cons e es ih =>
    obtain ⟨he, hes⟩ := entriesWF_cons.mp hwf
    obtain ⟨k, v⟩ := e
    rw [show encodeEntries ((k, v) :: es) = encodeEntry k v ++ encodeEntries es from rfl]
    rw [readAllEntries]
    split
    · rename_i e' rest' heq
      rw [read_entry_encode _ he] at heq
      cases heq
      rw [ih hes]
    · rename_i heq
      rw [read_entry_encode _ he] at heq
      cases heq
    · rename_i heq
      rw [read_entry_encode _ he] at heq
      cases heq

/-- The replay loop of `MemTable::recover` on a well-formed record file
followed by undecodable garbage: it inserts exactly the encoded records
in order and counts exactly the file's intact bytes. -/
theorem recoverLoop_encode {es : List Entry} {g : List Nat}
    (hwf : entriesWF es = true) (hg : stopsEntry g = true) :
    ∀ (t0 : List Entry) (n0 : Nat),
      recoverLoop (encodeEntries es ++ g) t0 n0 =
        (es.foldl (fun t e => treeInsert e.1 e.2 t) t0,
         n0 + (encodeEntries es).length) := by
  induction es with
  | nil =>
    intro t0 n0
    rw [recoverLoop]
    unfold stopsEntry at hg
    rcases hr : read_entry g with _ | _ | _ <;>
      simp [encodeEntries, hr] <;> simp [hr] at hg
  | cons e es ih =>
    intro t0 n0
    obtain ⟨he, hes⟩ := entriesWF_cons.mp hwf
    obtain ⟨k, v⟩ := e
    have henc : encodeEntries ((k, v) :: es) ++ g =
        encodeEntry k v ++ (encodeEntries es ++ g) := by
      simp [encodeEntries, List.append_assoc]
    rw [henc, recoverLoop]
    split
    · rename_i e' rest' heq
      rw [read_entry_encode _ he] at heq
      cases heq
      rw [ih hes]
      simp [encodeEntries, entry_size]
      omega
    · rename_i hne
      exact (hne _ _ (read_entry_encode _ he)).elim

/-- `applyOps` in closed form: the tree is the fold of the mutations'
records and the WAL is their concatenated encodings, in order. -/
theorem applyOps_eq (m : MemTable) (ops : List Op) :
    applyOps m ops =
      ⟨(ops.map opEntry).foldl (fun t e => treeInsert e.1 e.2 t) m.tree,
       m.wal ++ encodeEntries (ops.map opEntry)⟩ := by
  induction ops generalizing m with
  | nil => simp [applyOps, encodeEntries]
  | cons o ops ih =>
    have hstep : applyOps m (o :: ops) = applyOps (applyOp m o) ops := by
      simp [applyOps]
    rw [hstep, ih]
    cases o with
    | ins k v =>
      simp [applyOp, MemTable.insert, write_entry, opEntry, encodeEntries,
        List.append_assoc]
    | del k =>
      simp [applyOp, MemTable.remove, write_entry, opEntry, encodeEntries,
        List.append_assoc]

theorem opsWF_entries {ops : List Op} (h : opsWF ops = true) :
    entriesWF (ops.map opEntry) = true := by
  simp only [opsWF, List.all_eq_true] at h
  simp only [entriesWF, List.all_eq_true, List.mem_map]
  rintro e ⟨o, ho, rfl⟩
  exact h o ho

theorem entryLookup_treeInsert_self (k : Key) (v : Stored) (t : List Entry) :
    entryLookup (treeInsert k v t) k = some v := by
  induction t with
  | nil => simp [treeInsert, entryLookup]
  | cons e t ih =>
    rcases hc : compareKeys k e.1 with _ | _ | _
    · simp [treeInsert, hc, entryLookup]
    · simp [treeInsert, hc, entryLookup]
    · have hne : e.1 ≠ k := by
        intro he
        rw [he] at hc
        rw [compareKeys_self] at hc
        cases hc
      simp [treeInsert, hc, entryLookup, hne, ih]

theorem entryLookup_treeInsert_ne {k k' : Key} (v : Stored) (t : List Entry)
    (h : k' ≠ k) :
    entryLookup (treeInsert k v t) k' = entryLookup t k' := by
  have hkk : ¬ k = k' := fun he => h he.symm
  induction t with
  | nil => simp [treeInsert, entryLookup, hkk]
  | cons e t ih =>
    rcases hc : compareKeys k e.1 with _ | _ | _
    · simp [treeInsert, hc, entryLookup, hkk]
    · have he : k = e.1 := compareKeys_eq_iff.mp hc
      have he1 : ¬ e.1 = k' := by rw [← he]; exact hkk
      simp [treeInsert, hc, entryLookup, hkk, he1]
    · simp [treeInsert, hc, entryLookup, ih]

theorem length_treeInsert_absent {k : Key} (v : Stored) {t : List Entry}
    (h : entryLookup t k = none) :
    (treeInsert k v t).length = t.length + 1 := by
  induction t with
  | nil => simp [treeInsert]
  | cons e t ih =>
    have hne : ¬ e.1 = k := by
      intro he
      simp [entryLookup, he] at h
    have ht : entryLookup t k = none := by
      simpa [entryLookup, hne] using h
    rcases hc : compareKeys k e.1 with _ | _ | _
    · simp [treeInsert, hc]
    · exact absurd (compareKeys_eq_iff.mp hc).symm hne
    · simp [treeInsert, hc, ih ht]

theorem entryLookup_mem {t : List Entry} {k : Key} {v : Stored}
    (h : entryLookup t k = some v) : (k, v) ∈ t := by
  induction t with
  | nil => simp [entryLookup] at h
  | cons e t ih =>
    obtain ⟨k1, v1⟩ := e
    by_cases he : k1 = k
    · subst he
      simp [entryLookup] at h
      subst h
      exact List.mem_cons_self _ _
    · simp [entryLookup, he] at h
      exact List.mem_cons_of_mem _ (ih h)

theorem treeInsert_entriesWF {k : Key} {v : Stored} {t : List Entry}
    (he : entryWF (k, v) = true) (ht : entriesWF t = true) :
    entriesWF (treeInsert k v t) = true := by
  induction t with
  | nil => simp [treeInsert, entriesWF, he]
  | cons e t ih =>
    obtain ⟨h1, h2⟩ := entriesWF_cons.mp ht
    rcases hc : compareKeys k e.1 with _ | _ | _ <;>
      simp_all [treeInsert, entriesWF, hc]

theorem persist_eq (m : MemTable) : m.persist = encodeEntries m.tree := by
  suffices h : ∀ (es : List Entry) (acc : List Nat),
      es.foldl (fun fd e => write_entry fd e.1 e.2) acc = acc ++ encodeEntries es by
    simpa [MemTable.persist] using h m.tree []
  intro es
  induction es with
  | nil =>
    intro acc
    simp [encodeEntries]
  | cons e es ih =>
    intro acc
    rw [List.foldl_cons, ih]
    simp [write_entry, encodeEntries, List.append_assoc]


theorem sortedStrict_pairwise : ∀ {es : List Entry},
    sortedStrict es = true → List.Pairwise entryKeyLt es
  | [], _ => List.Pairwise.nil
  | [e], _ => by simp [List.pairwise_cons]
  | a :: b :: t, h => by
    simp only [sortedStrict, Bool.and_eq_true, decide_eq_true_eq] at h
    have hp := sortedStrict_pairwise h.2
    refine List.Pairwise.cons ?_ hp
    intro x hx
    rcases List.mem_cons.mp hx with rfl | hx2
    · exact h.1
    · exact keyLt_trans h.1 (List.rel_of_pairwise_cons hp hx2)

theorem pairwise_sortedStrict : ∀ {es : List Entry},
    List.Pairwise entryKeyLt es → sortedStrict es = true
  | [], _ => rfl
  | [_], _ => rfl
  | a :: b :: t, h => by
    obtain ⟨hr, hp⟩ := List.pairwise_cons.mp h
    have h1 : keyLt a.1 b.1 := hr b (by simp)
    simp only [sortedStrict, Bool.and_eq_true, decide_eq_true_eq]
    exact ⟨h1, pairwise_sortedStrict hp⟩

theorem entryLookup_none {t : List Entry} {k : Key}
    (h : ∀ e ∈ t, ¬ e.1 = k) : entryLookup t k = none := by
  induction t with
  | nil => rfl
  | cons e t ih =>
    simp [entryLookup, h e (by simp), ih fun x hx => h x (by simp [hx])]

theorem mem_mergeEntries {x : Entry} : ∀ {old new : List Entry},
    x ∈ mergeEntries old new → x ∈ old ∨ x ∈ new := by
  intro old new
  induction old, new using mergeEntries.induct with
  | case1 old =>
    intro h
    exact Or.inl (by simpa [mergeEntries] using h)
  | case2 new hne =>
    intro h
    cases new with
    | nil => exact (hne rfl).elim
    | cons n t => exact Or.inr (by simpa [mergeEntries] using h)
  | case3 ko vo oldT kn vn newT hcmp ih =>
    intro h
    rw [show mergeEntries ((ko, vo) :: oldT) ((kn, vn) :: newT) =
        (kn, vn) :: mergeEntries oldT newT from by simp [mergeEntries, hcmp]] at h
    rcases List.mem_cons.mp h with rfl | h2
    · exact Or.inr (by simp)
    · rcases ih h2 with h3 | h3
      · exact Or.inl (by simp [h3])
      · exact Or.inr (by simp [h3])
  | case4 ko vo oldT kn vn newT hcmp ih =>
    intro h
    rw [show mergeEntries ((ko, vo) :: oldT) ((kn, vn) :: newT) =
        (ko, vo) :: mergeEntries oldT ((kn, vn) :: newT) from by
      simp [mergeEntries, hcmp]] at h
    rcases List.mem_cons.mp h with rfl | h2
    · exact Or.inl (by simp)
    · rcases ih h2 with h3 | h3
      · exact Or.inl (by simp [h3])
      · exact Or.inr h3
  | case5 ko vo oldT kn vn newT hcmp ih =>
    intro h
    rw [show mergeEntries ((ko, vo) :: oldT) ((kn, vn) :: newT) =
        (kn, vn) :: mergeEntries ((ko, vo) :: oldT) newT from by
      simp [mergeEntries, hcmp]] at h
    rcases List.mem_cons.mp h with rfl | h2
    · exact Or.inr (by simp)
    · rcases ih h2 with h3 | h3
      · exact Or.inl h3
      · exact Or.inr (by simp [h3])

/-- The merge of two strictly ascending record sequences is strictly
ascending (in particular it has no duplicate keys). -/
theorem pairwise_mergeEntries : ∀ {old new : List Entry},
    List.Pairwise entryKeyLt old → List.Pairwise entryKeyLt new →
    List.Pairwise entryKeyLt (mergeEntries old new) := by
  intro old new
  induction old, new using mergeEntries.induct with
  | case1 old =>
    intro ho _
    simpa [mergeEntries] using ho
  | case2 new hne =>
    intro _ hn
    cases new with
    | nil => exact (hne rfl).elim
    | cons n t => simpa [mergeEntries] using hn
  | case3 ko vo oldT kn vn newT hcmp ih =>
    intro ho hn
    obtain ⟨hro, hpo⟩ := List.pairwise_cons.mp ho
    obtain ⟨hrn, hpn⟩ := List.pairwise_cons.mp hn
    have hk : ko = kn := compareKeys_eq_iff.mp hcmp
    rw [show mergeEntries ((ko, vo) :: oldT) ((kn, vn) :: newT) =
        (kn, vn) :: mergeEntries oldT newT from by simp [mergeEntries, hcmp]]
    refine List.Pairwise.cons ?_ (ih hpo hpn)
    intro x hx
    rcases mem_mergeEntries hx with hxo | hxn
    · have h1 : keyLt ko x.1 := hro x hxo
      have h2 : keyLt kn x.1 := by rw [← hk]; exact h1
      exact h2
    · exact hrn x hxn
  | case4 ko vo oldT kn vn newT hcmp ih =>
    intro ho hn
    obtain ⟨hro, hpo⟩ := List.pairwise_cons.mp ho
    rw [show mergeEntries ((ko, vo) :: oldT) ((kn, vn) :: newT) =
        (ko, vo) :: mergeEntries oldT ((kn, vn) :: newT) from by
      simp [mergeEntries, hcmp]]
    refine List.Pairwise.cons ?_ (ih hpo hn)
    intro x hx
    rcases mem_mergeEntries hx with hxo | hxn
    · exact hro x hxo
    · rcases List.mem_cons.mp hxn with rfl | hx2
      · exact hcmp
      · exact keyLt_trans hcmp (List.rel_of_pairwise_cons hn hx2)
  | case5 ko vo oldT kn vn newT hcmp ih =>
    intro ho hn
    obtain ⟨hrn, hpn⟩ := List.pairwise_cons.mp hn
    have hlt : keyLt kn ko := compareKeys_gt_iff.mp hcmp
    rw [show mergeEntries ((ko, vo) :: oldT) ((kn, vn) :: newT) =
        (kn, vn) :: mergeEntries ((ko, vo) :: oldT) newT from by
      simp [mergeEntries, hcmp]]
    refine List.Pairwise.cons ?_ (ih ho hpn)
    intro x hx
    rcases mem_mergeEntries hx with hxo | hxn
    · rcases List.mem_cons.mp hxo with rfl | hx2
      · exact hlt
      · exact keyLt_trans hlt (List.rel_of_pairwise_cons ho hx2)
    · exact hrn x hxn

/-- Newest-wins lookup through a merge: a key present in `new` resolves
to `new`'s record, otherwise to `old`'s. -/
theorem entryLookup_mergeEntries {k : Key} : ∀ {old new : List Entry},
    List.Pairwise entryKeyLt old → List.Pairwise entryKeyLt new →
    entryLookup (mergeEntries old new) k =
      (match entryLookup new k with
       | some v => some v
       | none => entryLookup old k) := by
  intro old new
  induction old, new using mergeEntries.induct with
  | case1 old =>
    intro _ _
    simp [mergeEntries, entryLookup]
  | case2 new hne =>
    intro _ _
    cases new with
    | nil => exact (hne rfl).elim
    | cons n t =>
      rw [show mergeEntries [] (n :: t) = n :: t from by simp [mergeEntries]]
      cases hl : entryLookup (n :: t) k <;> simp [hl, entryLookup]
  | case3 ko vo oldT kn vn newT hcmp ih =>
    intro ho hn
    obtain ⟨hro, hpo⟩ := List.pairwise_cons.mp ho
    obtain ⟨hrn, hpn⟩ := List.pairwise_cons.mp hn
    have hk : ko = kn := compareKeys_eq_iff.mp hcmp
    rw [show mergeEntries ((ko, vo) :: oldT) ((kn, vn) :: newT) =
        (kn, vn) :: mergeEntries oldT newT from by simp [mergeEntries, hcmp]]
    by_cases hkk : kn = k
    · simp [entryLookup, hkk]
    · have hko : ¬ ko = k := by rw [hk]; exact hkk
      simp [entryLookup, hkk, hko, ih hpo hpn]
  | case4 ko vo oldT kn vn newT hcmp ih =>
    intro ho hn
    obtain ⟨hro, hpo⟩ := List.pairwise_cons.mp ho
    rw [show mergeEntries ((ko, vo) :: oldT) ((kn, vn) :: newT) =
        (ko, vo) :: mergeEntries oldT ((kn, vn) :: newT) from by
      simp [mergeEntries, hcmp]]
    by_cases hkk : ko = k
    · subst hkk
      have hne1 : ¬ kn = ko := fun hh => (keyLt_ne hcmp) hh.symm
      have hnone2 : entryLookup newT ko = none := by
        apply entryLookup_none
        intro e he2
        have h2 : keyLt ko e.1 :=
          keyLt_trans hcmp (List.rel_of_pairwise_cons hn he2)
        exact fun hh => (keyLt_ne h2) hh.symm
      simp [entryLookup, hne1, hnone2]
    · simp [entryLookup, hkk, ih hpo hn]
  | case5 ko vo oldT kn vn newT hcmp ih =>
    intro ho hn
    obtain ⟨hrn, hpn⟩ := List.pairwise_cons.mp hn
    rw [show mergeEntries ((ko, vo) :: oldT) ((kn, vn) :: newT) =
        (kn, vn) :: mergeEntries ((ko, vo) :: oldT) newT from by
      simp [mergeEntries, hcmp]]
    by_cases hkk : kn = k
    · simp [entryLookup, hkk]
    · simp [entryLookup, hkk, ih ho hpn]

theorem indexLookup_hashInsert_self (k : Key) (off : Nat)
    (idx : List (Key × Nat)) :
    indexLookup (hashInsert k off idx) k = some off := by
  induction idx with
  | nil => simp [hashInsert, indexLookup]
  | cons p t ih =>
    by_cases hp : p.1 = k
    · simp [hashInsert, hp, indexLookup]
    · simp [hashInsert, hp, indexLookup, ih]

theorem indexLookup_hashInsert_ne {k k' : Key} (off : Nat)
    (idx : List (Key × Nat)) (h : ¬ k = k') :
    indexLookup (hashInsert k off idx) k' = indexLookup idx k' := by
  induction idx with
  | nil => simp [hashInsert, indexLookup, h]
  | cons p t ih =>
    by_cases hp : p.1 = k
    · have h2 : ¬ p.1 = k' := by rw [hp]; exact h
      simp [hashInsert, hp, indexLookup, h, h2]
    · simp [hashInsert, hp, indexLookup, ih]

theorem buildIndexLoop_stops {g : List Nat} (hg : stopsEntry g = true)
    (idx : List (Key × Nat)) (pos : Nat) :
    buildIndexLoop g idx pos = idx := by
  rw [buildIndexLoop]
  split
  · rename_i e rest heq
    simp [stopsEntry, heq] at hg
  · rfl

theorem buildIndexLoop_step {e : Entry} {es : List Entry} {g : List Nat}
    (he : entryWF e = true) (idx : List (Key × Nat)) (pos : Nat) :
    buildIndexLoop (encodeEntries (e :: es) ++ g) idx pos =
      buildIndexLoop (encodeEntries es ++ g) (hashInsert e.1 pos idx)
        (pos + entry_size e) := by
  obtain ⟨k, v⟩ := e
  have henc : encodeEntries ((k, v) :: es) ++ g =
      encodeEntry k v ++ (encodeEntries es ++ g) := by
    simp [encodeEntries, List.append_assoc]
  rw [henc, buildIndexLoop]
  split
  · rename_i e' rest' heq
    rw [read_entry_encode _ he] at heq
    cases heq
    rfl
  · rename_i hne
    exact (hne _ _ (read_entry_encode _ he)).elim

theorem buildIndexLoop_preserved {es : List Entry} {g : List Nat} {k : Key}
    (hwf : entriesWF es = true) (hg : stopsEntry g = true)
    (hk : ∀ e ∈ es, ¬ e.1 = k) :
    ∀ (idx0 : List (Key × Nat)) (pos : Nat),
      indexLookup (buildIndexLoop (encodeEntries es ++ g) idx0 pos) k =
        indexLookup idx0 k := by
  induction es with
  | nil =>
    intro idx0 pos
    rw [show encodeEntries [] ++ g = g from by simp [encodeEntries]]
    rw [buildIndexLoop_stops hg]
  | cons e es ih =>
    intro idx0 pos
    obtain ⟨he, hes⟩ := entriesWF_cons.mp hwf
    rw [buildIndexLoop_step he]
    rw [ih hes fun x hx => hk x (by simp [hx])]
    exact indexLookup_hashInsert_ne _ _ (hk e (by simp))

/-- Index correctness of `build_index_table` on a well-formed file
possibly followed by undecodable garbage: every record's key is indexed
at the byte offset of that record, from which `read_entry` decodes it. -/
theorem buildIndexLoop_lookup {es : List Entry} {g : List Nat}
    (hwf : entriesWF es = true) (hg : stopsEntry g = true)
    (hnd : List.Pairwise entryKeyLt es) :
    ∀ (idx0 : List (Key × Nat)) (pos : Nat) (k : Key) (v : Stored),
      (k, v) ∈ es →
      ∃ off rest,
        indexLookup (buildIndexLoop (encodeEntries es ++ g) idx0 pos) k = some off ∧
        pos ≤ off ∧
        read_entry ((encodeEntries es ++ g).drop (off - pos)) = .ok (k, v) rest := by
  induction es with
  | nil =>
    intro idx0 pos k v h
    cases h
  | cons e es ih =>
    intro idx0 pos k v hmem
    obtain ⟨he, hes⟩ := entriesWF_cons.mp hwf
    obtain ⟨hre, hpe⟩ := List.pairwise_cons.mp hnd
    rcases List.mem_cons.mp hmem with heq | hmem2
    · obtain ⟨k0, v0⟩ := e
      cases heq
      refine ⟨pos, encodeEntries es ++ g, ?_, le_refl pos, ?_⟩
      · rw [buildIndexLoop_step he]
        rw [buildIndexLoop_preserved hes hg
          (fun x hx => fun hh => keyLt_ne (hre x hx) hh.symm)]
        exact indexLookup_hashInsert_self _ _ _
      · rw [Nat.sub_self, List.drop_zero]
        rw [show encodeEntries ((k, v) :: es) ++ g =
            encodeEntry k v ++ (encodeEntries es ++ g) from by
          simp [encodeEntries, List.append_assoc]]
        exact read_entry_encode _ he
    · obtain ⟨off, rest, h1, h2, h3⟩ :=
        ih hes hpe (hashInsert e.1 pos idx0) (pos + entry_size e) k v hmem2
      refine ⟨off, rest, ?_, by omega, ?_⟩
      · rw [buildIndexLoop_step he]
        exact h1
      · obtain ⟨ke, ve⟩ := e
        have henc : encodeEntries ((ke, ve) :: es) ++ g =
            encodeEntry ke ve ++ (encodeEntries es ++ g) := by
          simp [encodeEntries, List.append_assoc]
        have hsplit : off - pos =
            (encodeEntry ke ve).length + (off - (pos + entry_size (ke, ve))) := by
          simp only [entry_size] at h2 ⊢
          omega
        rw [henc, hsplit, List.drop_append]
        exact h3

theorem readExact_short {n : Nat} {l : List Nat} (h : l.length < n) :
    readExact n l = none := by
  unfold readExact
  rw [if_neg (by omega)]

theorem readExact_of_eq {n : Nat} {l a : List Nat} (hle : n ≤ l.length)
    (ht : l.take n = a) : readExact n l = some (a, l.drop n) := by
  unfold readExact
  rw [if_pos hle, ht]

theorem prefix_take_drop {p q a t : List Nat} (h : p ++ q = a ++ t)
    (hle : a.length ≤ p.length) :
    p.take a.length = a ∧ p.drop a.length ++ q = t := by
  constructor
  · have h1 : (p ++ q).take a.length = p.take a.length :=
      List.take_append_of_le_length hle
    rw [← h1, h, List.take_left]
  · have h2 : (p ++ q).drop a.length = p.drop a.length ++ q :=
      List.drop_append_of_le_length hle
    rw [← h2, h, List.drop_left]


/-- Truncation behaviour of the codec: reading a STRICT prefix of a
well-formed encoded record yields `EndOfStream` (`Ok(None)`), never a
corruption error — every cut point lands in some `read_exact`, which
reports `UnexpectedEof`. -/
theorem read_entry_prefix_eof {k : Key} {v : Stored} {p q : List Nat}
    (hwf : entryWF (k, v) = true) (happ : p ++ q = encodeEntry k v)
    (hq : q ≠ []) : read_entry p = .eof := by
  obtain ⟨h1, h2, h3⟩ := entryWF_parts hwf
  have hq1 : 1 ≤ q.length := by
    cases q with
    | nil => exact absurd rfl hq
    | cons a t => simp
  cases v with
  | Tombstone =>
    have happ2 : p ++ q = encodeU64 k.length ++ (k ++ encodeU32 0) := by
      rw [happ]
      simp [encodeEntry, List.append_assoc]
    by_cases hc8 : p.length < 8
    · simp [read_entry, readExact_short hc8]
    · push_neg at hc8
      obtain ⟨ht8, hd8⟩ := prefix_take_drop happ2 (by rw [encodeU64_length]; exact hc8)
      rw [encodeU64_length] at ht8 hd8
      have rE8 : readExact 8 p = some (encodeU64 k.length, p.drop 8) :=
        readExact_of_eq hc8 ht8
      by_cases hck : (p.drop 8).length < k.length
      · simp [read_entry, rE8, leNat_encodeU64 h2, readExact_short hck]
      · push_neg at hck
        obtain ⟨htk, hdk⟩ := prefix_take_drop hd8 hck
        have rEk : readExact k.length (p.drop 8) =
            some (k, (p.drop 8).drop k.length) := readExact_of_eq hck htk
        simp only [List.drop_drop] at rEk hdk
        have hshort : (p.drop (8 + k.length)).length < 4 := by
          have hl := congrArg List.length hdk
          simp only [List.length_append, List.length_drop, encodeU32_length] at hl
          simp only [List.length_drop]
          omega
        simp [read_entry, rE8, leNat_encodeU64 h2, rEk, h1, readExact_short hshort]
  | Value b =>
    have hb : b.length < 2 ^ 64 := h3 b rfl
    have happ2 : p ++ q = encodeU64 k.length ++
        (k ++ (encodeU32 1 ++ (encodeU64 b.length ++ b))) := by
      rw [happ]
      simp [encodeEntry, List.append_assoc]
    by_cases hc8 : p.length < 8
    · simp [read_entry, readExact_short hc8]
    · push_neg at hc8
      obtain ⟨ht8, hd8⟩ := prefix_take_drop happ2 (by rw [encodeU64_length]; exact hc8)
      rw [encodeU64_length] at ht8 hd8
      have rE8 : readExact 8 p = some (encodeU64 k.length, p.drop 8) :=
        readExact_of_eq hc8 ht8
      by_cases hck : (p.drop 8).length < k.length
      · simp [read_entry, rE8, leNat_encodeU64 h2, readExact_short hck]
      · push_neg at hck
        obtain ⟨htk, hdk⟩ := prefix_take_drop hd8 hck
        have rEk : readExact k.length (p.drop 8) =
            some (k, (p.drop 8).drop k.length) := readExact_of_eq hck htk
        simp only [List.drop_drop] at rEk hdk
        by_cases hc4 : (p.drop (8 + k.length)).length < 4
        · simp [read_entry, rE8, leNat_encodeU64 h2, rEk, h1, readExact_short hc4]
        · push_neg at hc4
          obtain ⟨ht4, hd4⟩ := prefix_take_drop hdk (by rw [encodeU32_length]; exact hc4)
          rw [encodeU32_length] at ht4 hd4
          have rE4 : readExact 4 (p.drop (8 + k.length)) =
              some (encodeU32 1, (p.drop (8 + k.length)).drop 4) :=
            readExact_of_eq hc4 ht4
          simp only [List.drop_drop] at rE4 hd4
          have htag1 : leNat (encodeU32 1) = 1 := rfl
          by_cases hcv : (p.drop (8 + k.length + 4)).length < 8
          · simp [read_entry, rE8, leNat_encodeU64 h2, rEk, h1, rE4, htag1,
              readExact_short hcv]
          · push_neg at hcv
            obtain ⟨htv, hdv⟩ := prefix_take_drop hd4 (by rw [encodeU64_length]; exact hcv)
            rw [encodeU64_length] at htv hdv
            have rEv : readExact 8 (p.drop (8 + k.length + 4)) =
                some (encodeU64 b.length, (p.drop (8 + k.length + 4)).drop 8) :=
              readExact_of_eq hcv htv
            simp only [List.drop_drop] at rEv hdv
            have hlast : (p.drop (8 + k.length + 4 + 8)).length < b.length := by
              have hl := congrArg List.length hdv
              simp only [List.length_append, List.length_drop] at hl
              simp only [List.length_drop]
              omega
            simp [read_entry, rE8, leNat_encodeU64 h2, rEk, h1, rE4, htag1,
              leNat_encodeU64 hb, rEv, readExact_short hlast]

/-- `MemTable::recover` on a well-formed WAL followed by an undecodable
tail: the map is the replay fold of the intact records and `set_len`
truncates the file to exactly the intact prefix. -/
theorem recover_encode_append {es : List Entry} {g : List Nat}
    (hwf : entriesWF es = true) (hg : stopsEntry g = true) :
    MemTable.recover (encodeEntries es ++ g) =
      ⟨es.foldl (fun t e => treeInsert e.1 e.2 t) [], encodeEntries es⟩ := by
  unfold MemTable.recover
  rw [recoverLoop_encode hwf hg]
  simp [List.take_left]

/-- C1: the claim says that after a successful `Storage::insert(k, v)`
and before any later write to `k`, `Storage::read(k)` returns `Some(v)`.
The code violates it: `Storage::read` never consults the active MemTable
(it probes only the frozen `memtables` and the L0 readers), so a freshly
inserted key — which demonstrably sits in the active MemTable — reads
back as `None` until the threshold rotation.  Evaluated on an empty
store with the default threshold 1024. -/
theorem c1_insert_invisible_to_read :
    ((Storage.openEmpty 1024).insert [97] [49]).engine.active_memtable.get [97] =
        some [49] ∧
      Storage.read ((Storage.openEmpty 1024).insert [97] [49]) [97] = none := by
  decide

/-- C2: the claim says that after `Storage::remove(k)` a read returns
`None`, a tombstone terminating the layered search.  The code violates
it: `MemTable::get` maps a tombstone to `None`, which `find_map` treats
as "keep looking", so older layers are consulted and the removed key's
old value is resurrected.  Evaluated with threshold 1: insert freezes
the value, remove freezes the tombstone, and the read then returns the
old value `[49]` instead of `None`. -/
theorem c2_removed_key_resurrected :
    Storage.read (((Storage.openEmpty 1).insert [97] [49]).remove [97]) [97] =
      some [49] := by
  decide

/-- C3: the claim says reads probe active MemTable, frozen MemTables,
L0, then L1.  The code violates it: `Storage::read` iterates only the
frozen `memtables` and `sstable_readers0` — never `active_memtable` and
never `sstable_readers1`.  Evaluated on the engine state left by
`trigger_l0_compaction` (L0 empty, the single merged table in L1): the
record is present in the L1 table (its own `get` returns it) but
`Storage::read` returns `None`. -/
theorem c3_read_ignores_l1 :
    SSTable.new (encodeEntry [98] (Stored.Value [1])) =
      .ok ⟨encodeEntry [98] (Stored.Value [1]), [([98], 0)]⟩ ∧
    SSTable.get ⟨encodeEntry [98] (Stored.Value [1]), [([98], 0)]⟩ [98] =
      .ok (some [1]) ∧
    Storage.read ⟨⟨MemTable.new, [], [],
        [⟨encodeEntry [98] (Stored.Value [1]), [([98], 0)]⟩], [],
        [⟨encodeEntry [98] (Stored.Value [1]), [([98], 0)]⟩]⟩, 1024, 0⟩ [98] =
      none := by
  refine ⟨?_, by decide, by decide⟩
  have h1 : buildIndexLoop (encodeEntries [([98], Stored.Value [1])] ++ []) [] 0 =
      [([98], 0)] := by
    rw [@buildIndexLoop_step ([98], Stored.Value [1]) [] [] (by decide) [] 0]
    simp only [encodeEntries, List.nil_append]
    rw [buildIndexLoop_stops stopsEntry_nil]
    decide
  rw [show encodeEntry [98] (Stored.Value [1]) =
      encodeEntries [([98], Stored.Value [1])] ++ [] from by simp [encodeEntries]]
  unfold SSTable.new build_index_table
  rw [h1]
  rfl

/-- C4 counterexample: the claim says `read_entry` returns `EndOfStream`
(`Ok(None)`) only when the stream is exactly at EOF before any byte is
consumed, and fails with a corruption error on a record truncated
mid-way.  On the one-byte stream `[0]` — not at EOF, and truncated
inside the key-length prefix — the code returns `EndOfStream`, not an
error, because bincode's `UnexpectedEof` is accepted by `reached_eof`
wherever it occurs. -/
theorem c4_counterexample :
    read_entry [0] = ReadResult.eof ∧ ([0] : List Nat) ≠ [] := by
  decide

/-- C4 (amended): `read_entry` returns `EndOfStream` whenever the
underlying reader hits end-of-input — at a record boundary (including
the empty stream) or anywhere mid-record — and returns the decoded
record on a complete encoding; a corruption error is reserved for
non-EOF decoding failures such as an out-of-range variant tag. -/
theorem c4_amended :
    read_entry [] = ReadResult.eof ∧
    (∀ (k : Key) (v : Stored) (rest : List Nat), entryWF (k, v) = true →
      read_entry (encodeEntry k v ++ rest) = .ok (k, v) rest) ∧
    (∀ (k : Key) (v : Stored) (p q : List Nat), entryWF (k, v) = true →
      p ++ q = encodeEntry k v → q ≠ [] → read_entry p = .eof) ∧
    read_entry (encodeU64 0 ++ encodeU32 2) = ReadResult.corrupt := by
  refine ⟨rfl, ?_, ?_, by decide⟩
  · intro k v rest hwf
    exact read_entry_encode rest hwf
  · intro k v p q hwf happ hq
    exact read_entry_prefix_eof hwf happ hq

/-- Witness for C4 (amended): cutting the 13-byte tombstone record for
key "a" after 5 bytes yields `EndOfStream`. -/
theorem c4_amended_witness :
    read_entry ((encodeEntry [97] Stored.Tombstone).take 5) = ReadResult.eof :=
  c4_amended.2.2.1 [97] Stored.Tombstone
    ((encodeEntry [97] Stored.Tombstone).take 5)
    ((encodeEntry [97] Stored.Tombstone).drop 5)
    (by decide) (by decide) (by decide)

/-- C5: `SSTable::merge` of two strictly ascending tables produces the
file of the merged record sequence; that sequence is strictly ascending
with no duplicate keys, and for every key its record is `new`'s record
when the key is present in `new` and `old`'s record otherwise. -/
theorem c5_merge_newest_wins (old new : List Entry)
    (hwo : entriesWF old = true) (hwn : entriesWF new = true)
    (ho : sortedStrict old = true) (hn : sortedStrict new = true) :
    SSTable.merge (encodeEntries old) (encodeEntries new) =
      .ok (encodeEntries (mergeEntries old new)) ∧
    sortedStrict (mergeEntries old new) = true ∧
    ∀ k, entryLookup (mergeEntries old new) k =
      (match entryLookup new k with
       | some v => some v
       | none => entryLookup old k) := by
  refine ⟨?_,
    pairwise_sortedStrict
      (pairwise_mergeEntries (sortedStrict_pairwise ho) (sortedStrict_pairwise hn)),
    fun k =>
      entryLookup_mergeEntries (sortedStrict_pairwise ho) (sortedStrict_pairwise hn)⟩
  simp [SSTable.merge, readAllEntries_encode hwo, readAllEntries_encode hwn]

/-- Witness for C5 on the spec's merge scenario (keys "k1".."k5"): the
key "k3", a tombstone in the younger table, resolves to the younger
table's record. -/
theorem c5_merge_newest_wins_witness :
    entryLookup
      (mergeEntries
        [([107, 49], Stored.Value [118, 49]), ([107, 50], Stored.Value [118, 50]),
         ([107, 51], Stored.Value [118, 51]), ([107, 53], Stored.Tombstone)]
        [([107, 49], Stored.Value [118, 53]), ([107, 51], Stored.Tombstone),
         ([107, 52], Stored.Value [118, 52])]) [107, 51] =
      (match entryLookup
          [([107, 49], Stored.Value [118, 53]), ([107, 51], Stored.Tombstone),
           ([107, 52], Stored.Value [118, 52])] [107, 51] with
       | some v => some v
       | none =>
         entryLookup
           [([107, 49], Stored.Value [118, 49]), ([107, 50], Stored.Value [118, 50]),
            ([107, 51], Stored.Value [118, 51]), ([107, 53], Stored.Tombstone)]
           [107, 51]) :=
  (c5_merge_newest_wins _ _ (by decide) (by decide) (by decide) (by decide)).2.2
    [107, 51]

/-- C6 counterexample: the claim says every tombstone is dropped from
the output of a compaction that produces the new L1 table.  Running
`trigger_l0_compaction` on two L0 tables whose younger one holds a
tombstone for "a": the merged file installed as the new L1 table still
contains that tombstone record. -/
theorem c6_counterexample :
    (trigger_l0_compaction
        [encodeEntries [([97], Stored.Value [1])],
         encodeEntries [([97], Stored.Tombstone), ([98], Stored.Value [2])]] []).map
        readAllEntries =
      some (.ok [([97], Stored.Tombstone), ([98], Stored.Value [2])]) := by
  have hwo : entriesWF [([97], Stored.Value [1])] = true := by decide
  have hwn : entriesWF [([97], Stored.Tombstone), ([98], Stored.Value [2])] = true := by
    decide
  have hme : mergeEntries [([97], Stored.Value [1])]
      [([97], Stored.Tombstone), ([98], Stored.Value [2])] =
      [([97], Stored.Tombstone), ([98], Stored.Value [2])] := by
    rw [show mergeEntries [([97], Stored.Value [1])]
        [([97], Stored.Tombstone), ([98], Stored.Value [2])] =
        ([97], Stored.Tombstone) :: mergeEntries [] [([98], Stored.Value [2])] from by
      simp [mergeEntries, show compareKeys [97] [97] = Ordering.eq from by decide]]
    rw [show mergeEntries [] [([98], Stored.Value [2])] = [([98], Stored.Value [2])] from by
      simp [mergeEntries]]
  have hm : SSTable.merge (encodeEntries [([97], Stored.Value [1])])
      (encodeEntries [([97], Stored.Tombstone), ([98], Stored.Value [2])]) =
      .ok (encodeEntries [([97], Stored.Tombstone), ([98], Stored.Value [2])]) := by
    rw [show SSTable.merge (encodeEntries [([97], Stored.Value [1])])
        (encodeEntries [([97], Stored.Tombstone), ([98], Stored.Value [2])]) =
        .ok (encodeEntries (mergeEntries [([97], Stored.Value [1])]
          [([97], Stored.Tombstone), ([98], Stored.Value [2])])) from by
      simp [SSTable.merge, readAllEntries_encode hwo, readAllEntries_encode hwn]]
    rw [hme]
  simp [trigger_l0_compaction, hm, readAllEntries_encode hwn]

/-- C6 (amended): tombstones that survive newest-wins resolution are
always preserved by `SSTable::merge` — including the merges performed by
`trigger_l0_compaction`, whose result becomes the single new L1 table;
no compaction ever drops a tombstone. -/
theorem c6_amended (old new : List Entry) (k : Key)
    (hwo : entriesWF old = true) (hwn : entriesWF new = true)
    (ho : sortedStrict old = true) (hn : sortedStrict new = true)
    (h : entryLookup new k = some .Tombstone ∨
      (entryLookup new k = none ∧ entryLookup old k = some .Tombstone)) :
    entryLookup (mergeEntries old new) k = some .Tombstone ∧
    trigger_l0_compaction [encodeEntries old] [encodeEntries new] =
      some (encodeEntries (mergeEntries old new)) := by
  constructor
  · have hl := entryLookup_mergeEntries (k := k)
      (sortedStrict_pairwise ho) (sortedStrict_pairwise hn)
    rcases h with h | ⟨h1, h2⟩
    · simp [hl, h]
    · simp [hl, h1, h2]
  · simp [trigger_l0_compaction, SSTable.merge,
      readAllEntries_encode hwo, readAllEntries_encode hwn]

/-- Witness for C6 (amended) at a tombstone in the younger table. -/
theorem c6_amended_witness :
    entryLookup (mergeEntries [] [([97], Stored.Tombstone)]) [97] =
        some .Tombstone ∧
      trigger_l0_compaction [encodeEntries []]
          [encodeEntries [([97], Stored.Tombstone)]] =
        some (encodeEntries (mergeEntries [] [([97], Stored.Tombstone)])) :=
  c6_amended _ _ _ (by decide) (by decide) (by decide) (by decide)
    (Or.inl (by decide))

/-- C7: the WAL write/replay round trip.  For any MemTable built from
empty by a sequence of successful inserts and removes, `recover` on its
WAL yields the same ordered map. -/
theorem c7_recover_roundtrip (ops : List Op) (h : opsWF ops = true) :
    (MemTable.recover (applyOps MemTable.new ops).wal).tree =
      (applyOps MemTable.new ops).tree := by
  rw [applyOps_eq]
  simp only [MemTable.new, List.nil_append]
  have h2 := recover_encode_append (g := []) (opsWF_entries h) stopsEntry_nil
  rw [List.append_nil] at h2
  rw [h2]

/-- Witness for C7 on insert "a" then remove "b". -/
theorem c7_recover_roundtrip_witness :
    (MemTable.recover (applyOps MemTable.new [Op.ins [97] [49], Op.del [98]]).wal).tree =
      (applyOps MemTable.new [Op.ins [97] [49], Op.del [98]]).tree :=
  c7_recover_roundtrip _ (by decide)

/-- C8 counterexample: the claim quantifies over EVERY sequence of
arbitrary appended bytes.  If the appended bytes happen to form a valid
encoded record — here a tombstone record for "b" — recovery absorbs
them: the recovered map differs from the pre-corruption map. -/
theorem c8_counterexample :
    (MemTable.recover ((applyOps MemTable.new [Op.ins [97] [49]]).wal ++
        encodeEntry [98] Stored.Tombstone)).tree ≠
      (applyOps MemTable.new [Op.ins [97] [49]]).tree := by
  rw [applyOps_eq]
  simp only [MemTable.new, List.map_cons, List.map_nil, opEntry, List.nil_append]
  rw [show encodeEntries [([97], Stored.Value [49])] ++ encodeEntry [98] Stored.Tombstone =
      encodeEntries [([97], Stored.Value [49]), ([98], Stored.Tombstone)] ++ [] from by
    simp [encodeEntries]]
  rw [recover_encode_append (by decide) stopsEntry_nil]
  decide

/-- C8 (amended): appending bytes from which no record can be decoded
(a truncated or corrupt tail) and recovering yields an ordered map equal
to the pre-corruption map, and the WAL file is truncated back to its
pre-corruption length. -/
theorem c8_amended (ops : List Op) (g : List Nat)
    (h : opsWF ops = true) (hg : stopsEntry g = true) :
    (MemTable.recover ((applyOps MemTable.new ops).wal ++ g)).tree =
        (applyOps MemTable.new ops).tree ∧
      (MemTable.recover ((applyOps MemTable.new ops).wal ++ g)).wal.length =
        (applyOps MemTable.new ops).wal.length := by
  rw [applyOps_eq]
  simp only [MemTable.new, List.nil_append]
  rw [recover_encode_append (opsWF_entries h) hg]
  exact ⟨rfl, rfl⟩

/-- Witness for C8 (amended): three writes, then one stray byte. -/
theorem c8_amended_witness :
    (MemTable.recover ((applyOps MemTable.new
          [Op.ins [97] [49], Op.ins [98] [50], Op.del [97]]).wal ++ [0])).tree =
        (applyOps MemTable.new
          [Op.ins [97] [49], Op.ins [98] [50], Op.del [97]]).tree ∧
      (MemTable.recover ((applyOps MemTable.new
          [Op.ins [97] [49], Op.ins [98] [50], Op.del [97]]).wal ++ [0])).wal.length =
        (applyOps MemTable.new
          [Op.ins [97] [49], Op.ins [98] [50], Op.del [97]]).wal.length :=
  c8_amended _ _ (by decide) (by decide)

/-- C9 counterexample: the claim says `SSTable::new` fails with an error
whenever the file ends in the middle of a record.  On a file holding one
valid record followed by a 3-byte truncated fragment, `SSTable::new`
succeeds and returns the table with the partial (here: one-entry)
index — the `while let Ok(Some(..))` loop discards the stopping
condition. -/
theorem c9_counterexample :
    SSTable.new (encodeEntry [97] (Stored.Value [1]) ++ [0, 0, 0]) =
      .ok ⟨encodeEntry [97] (Stored.Value [1]) ++ [0, 0, 0], [([97], 0)]⟩ := by
  have h1 : buildIndexLoop (encodeEntries [([97], Stored.Value [1])] ++ [0, 0, 0]) [] 0 =
      [([97], 0)] := by
    rw [@buildIndexLoop_step ([97], Stored.Value [1]) [] [0, 0, 0] (by decide) [] 0]
    simp only [encodeEntries, List.nil_append]
    rw [buildIndexLoop_stops (by decide)]
    decide
  rw [show encodeEntry [97] (Stored.Value [1]) ++ [0, 0, 0] =
      encodeEntries [([97], Stored.Value [1])] ++ [0, 0, 0] from by simp [encodeEntries]]
  unfold SSTable.new build_index_table
  rw [h1]
  rfl

/-- C9 (amended): `SSTable::new` scans the file sequentially and always
returns `Ok`: decoding stops silently at a truncated or corrupt tail,
and the index maps every record of the intact prefix to the byte offset
of its record, from which `read_entry` decodes exactly that record. -/
theorem c9_amended (es : List Entry) (g : List Nat)
    (hwf : entriesWF es = true) (hg : stopsEntry g = true)
    (hs : sortedStrict es = true) :
    build_index_table (encodeEntries es ++ g) =
      .ok (buildIndexLoop (encodeEntries es ++ g) [] 0) ∧
    ∀ k v, (k, v) ∈ es →
      ∃ off rest,
        indexLookup (buildIndexLoop (encodeEntries es ++ g) [] 0) k = some off ∧
        read_entry ((encodeEntries es ++ g).drop off) = .ok (k, v) rest := by
  refine ⟨rfl, ?_⟩
  intro k v hmem
  obtain ⟨off, rest, h1, h2, h3⟩ :=
    buildIndexLoop_lookup hwf hg (sortedStrict_pairwise hs) [] 0 k v hmem
  rw [Nat.sub_zero] at h3
  exact ⟨off, rest, h1, h3⟩

/-- Witness for C9 (amended): one record plus a stray trailing byte. -/
theorem c9_amended_witness :
    ∃ off rest,
      indexLookup (buildIndexLoop
          (encodeEntries [([97], Stored.Value [1])] ++ [0]) [] 0) [97] = some off ∧
      read_entry ((encodeEntries [([97], Stored.Value [1])] ++ [0]).drop off) =
        .ok ([97], Stored.Value [1]) rest :=
  (c9_amended _ _ (by decide) (by decide) (by decide)).2 [97] (Stored.Value [1])
    (by decide)

/-- C10: `MemTable::remove` of an absent key inserts a tombstone entry:
`len` grows by one (counting toward the flush threshold), `get` returns
`None`, and a subsequent `persist` writes the tombstone record into the
SSTable file (decoding the persisted file exhibits it). -/
theorem c10_remove_absent_key (m : MemTable) (k : Key)
    (hk : entryWF (k, .Tombstone) = true)
    (ht : entriesWF m.tree = true)
    (habs : entryLookup m.tree k = none) :
    (m.remove k).len = m.len + 1 ∧
    (m.remove k).get k = none ∧
    entryLookup (m.remove k).tree k = some .Tombstone ∧
    (k, Stored.Tombstone) ∈ (m.remove k).tree ∧
    readAllEntries (m.remove k).persist = .ok (m.remove k).tree := by
  have h1 : entryLookup (m.remove k).tree k = some .Tombstone := by
    simpa [MemTable.remove] using entryLookup_treeInsert_self k .Tombstone m.tree
  refine ⟨?_, ?_, h1, entryLookup_mem h1, ?_⟩
  · simpa [MemTable.remove, MemTable.len] using
      length_treeInsert_absent Stored.Tombstone habs
  · simp [MemTable.get, h1]
  · rw [persist_eq]
    exact readAllEntries_encode
      (by simpa [MemTable.remove] using treeInsert_entriesWF hk ht)

/-- Witness for C10: removing the absent key "b" from a MemTable that
holds only "a". -/
theorem c10_remove_absent_key_witness :
    ((MemTable.new.insert [97] [49]).remove [98]).len =
        (MemTable.new.insert [97] [49]).len + 1 ∧
      ((MemTable.new.insert [97] [49]).remove [98]).get [98] = none ∧
      entryLookup ((MemTable.new.insert [97] [49]).remove [98]).tree [98] =
        some .Tombstone ∧
      ([98], Stored.Tombstone) ∈ ((MemTable.new.insert [97] [49]).remove [98]).tree ∧
      readAllEntries ((MemTable.new.insert [97] [49]).remove [98]).persist =
        .ok ((MemTable.new.insert [97] [49]).remove [98]).tree :=
  c10_remove_absent_key _ _ (by decide) (by decide) (by decide)
